import Mathlib

/-!
Shallow embedding of `src/python/mxnet/rnn/io.py`: the sentence encoder
`encode_sentences` and the bucketing iterator `BucketSentenceIter`.

Machine conventions: Python ints are modelled as `Int`/`Nat` (no overflow in
CPython); Python dicts keep insertion order and are modelled as association
lists with first-match lookup; numpy arrays of shape `(r, c)` are modelled as
`List (List Int)` (the `float32` dtype only stores small integers here, so the
numeric content is integral); exceptions are modelled with `Except`.
-/

/-- Equality of `Except` results is decidable (used to evaluate the model on
concrete inputs). -/
instance {ε α : Type*} [DecidableEq ε] [DecidableEq α] : DecidableEq (Except ε α) := fun
  | .ok a, .ok b => decidable_of_iff (a = b) (by simp)
  | .ok _, .error _ => .isFalse (by simp)
  | .error _, .ok _ => .isFalse (by simp)
  | .error a, .error b => decidable_of_iff (a = b) (by simp)

/-- Python dict lookup (`word in vocab` / `vocab[word]`) on an
insertion-ordered association list: first matching key wins. -/
def dictGet (vocab : List (String × Int)) (word : String) : Option Int :=
  (vocab.find? (fun p => p.1 == word)).map (fun p => p.2)

/-- Encoder loop state: the vocabulary dict and the running counter `idx`. -/
structure EncSt where
  vocab : List (String × Int)
  idx : Int
deriving DecidableEq, Repr

/-- The `AssertionError` raised by `assert new_vocab, "Unknow token %s"%word`:
carries the message and the vocabulary dict at the moment of failure (the
assert fires before any assignment, so the dict is exactly the supplied one). -/
structure EncError where
  msg : String
  vocab : List (String × Int)
deriving DecidableEq, Repr

/-- One iteration of the inner `for word in sent` loop of `encode_sentences`:
known words are looked up; unknown words are either added (open vocabulary,
skipping `invalid_label`) or trigger the assertion (closed vocabulary). -/
def encodeWord (new_vocab : Bool) (invalid_label : Int) (st : EncSt) (word : String) :
    Except EncError (Int × EncSt) :=
  match dictGet st.vocab word with
  | some v => .ok (v, st)
  | none =>
    if new_vocab then
      let idx := if st.idx = invalid_label then st.idx + 1 else st.idx
      .ok (idx, { vocab := st.vocab ++ [(word, idx)], idx := idx + 1 })
    else
      .error { msg := "Unknow token " ++ word, vocab := st.vocab }

/-- The `for word in sent` loop of `encode_sentences`. -/
def encodeSent (new_vocab : Bool) (invalid_label : Int) (st : EncSt) :
    List String → Except EncError (List Int × EncSt)
  | [] => .ok ([], st)
  | word :: ws =>
    match encodeWord new_vocab invalid_label st word with
    | .error e => .error e
    | .ok (v, st1) =>
      match encodeSent new_vocab invalid_label st1 ws with
      | .error e => .error e
      | .ok (vs, st2) => .ok (v :: vs, st2)

/-- The outer `for sent in sentences` loop of `encode_sentences`. -/
def encodeSents (new_vocab : Bool) (invalid_label : Int) (st : EncSt) :
    List (List String) → Except EncError (List (List Int) × EncSt)
  | [] => .ok ([], st)
  | s :: ss =>
    match encodeSent new_vocab invalid_label st s with
    | .error e => .error e
    | .ok (vs, st1) =>
      match encodeSents new_vocab invalid_label st1 ss with
      | .error e => .error e
      | .ok (rest, st2) => .ok (vs :: rest, st2)

/-- `encode_sentences(sentences, vocab, invalid_label, invalid_key, start_label)`. -/
def encode_sentences (sentences : List (List String)) (vocab : Option (List (String × Int)))
    (invalid_label : Int) (invalid_key : String) (start_label : Int) :
    Except EncError (List (List Int) × List (String × Int)) :=
  let new_vocab := vocab.isNone
  let v0 := match vocab with
    | none => [(invalid_key, invalid_label)]
    | some v => v
  match encodeSents new_vocab invalid_label { vocab := v0, idx := start_label } sentences with
  | .error e => .error e
  | .ok (res, st) => .ok (res, st.vocab)

/-- Decoding through the inverse of the vocabulary mapping: the (unique, when
the value column is duplicate-free) token whose index is `i`. -/
def decodeTok (vocab : List (String × Int)) (i : Int) : Option String :=
  (vocab.find? (fun p => p.2 == i)).map (fun p => p.1)

/-- `bisect.bisect_left(l, x)` for an ascending list `l` (the only way the
source calls it): the leftmost insertion point, i.e. the number of leading
elements strictly below `x`. -/
def bisect_left (l : List Nat) (x : Nat) : Nat :=
  (l.takeWhile (fun b => decide (b < x))).length

/-- `np.bincount(ls)`: occurrence counts of each value `0 .. max ls`
(an empty input gives an empty array). -/
def bincount (ls : List Nat) : List Nat :=
  match ls with
  | [] => []
  | _ :: _ => (List.range (ls.foldr Nat.max 0 + 1)).map (fun i => ls.count i)

/-- The derived bucket list of `BucketSentenceIter.__init__`:
`[i for i, j in enumerate(np.bincount([len(s) for s in sentences])) if j >= batch_size]`,
with `enumerate` rendered as indices into the bincount array. -/
def derivedBuckets (sentences : List (List Int)) (batch_size : Nat) : List Nat :=
  let counts := bincount (sentences.map List.length)
  (List.range counts.length).filter (fun i => decide (batch_size ≤ counts.getD i 0))

/-- `buff = np.full((width,), invalid_label); buff[:len(s)] = s`: the sentence
right-padded to `width` with `invalid_label` (at call sites `s.length ≤ width`). -/
def padTo (width : Nat) (invalid_label : Int) (s : List Int) : List Int :=
  s ++ List.replicate (width - s.length) invalid_label

/-- The state of a constructed `BucketSentenceIter`.  `ndiscard` is the discard
count reported by the constructor's warning print (Python keeps it in a local
and prints it; we record it so the reported diagnostic is observable). -/
structure BucketSentenceIter where
  data : List (List (List Int))
  default_bucket_key : Nat
  provide_data : List (String × Nat × Nat)
  provide_label : List (String × Nat × Nat)
  batch_size : Nat
  buckets : List Nat
  data_name : String
  label_name : String
  invalid_label : Int
  idx : List (Nat × Nat)
  curr_idx : Nat
  ndiscard : Nat
deriving DecidableEq, Repr

/-- The `ValueError` raised by `max(buckets)` when the bucket list is empty. -/
inductive InitError
  | maxEmpty
deriving DecidableEq, Repr

/-- One iteration of the `for i in xrange(len(sentences))` bucketing loop:
either discard the sentence (no bucket is wide enough) or append its padded
row to the bucket found by `bisect_left`. -/
def assignStep (buckets : List Nat) (invalid_label : Int)
    (acc : List (List (List Int)) × Nat) (s : List Int) :
    List (List (List Int)) × Nat :=
  let buck := bisect_left buckets s.length
  if buck = buckets.length then (acc.1, acc.2 + 1)
  else (acc.1.set buck (acc.1.getD buck [] ++ [padTo (buckets.getD buck 0) invalid_label s]),
        acc.2)

/-- `range(0, n - batch_size + 1, batch_size)` for `batch_size ≥ 1`: the batch
start offsets inside a bucket of `n` rows (`n / batch_size` multiples of
`batch_size`, which is exactly Python's range since
`ceil((n - batch_size + 1) / batch_size) = n / batch_size` when `n ≥ batch_size`
and the range is empty when `n < batch_size`). -/
def batchStarts (n batch_size : Nat) : List Nat :=
  (List.range (n / batch_size)).map (fun k => k * batch_size)

/-- `if not buckets: buckets = [...]`: a missing bucket list and a supplied
empty one (both falsy in Python) trigger derivation; a non-empty one is kept. -/
def resolveBuckets (sentences : List (List Int)) (batch_size : Nat) :
    Option (List Nat) → List Nat
  | none => derivedBuckets sentences batch_size
  | some [] => derivedBuckets sentences batch_size
  | some bs => bs

/-- `BucketSentenceIter.__init__`.  `enumerate(self.data)` in the index-table
comprehension is rendered as indices into `data`; `buckets.sort()` is the
ascending stable sort. -/
def BucketSentenceIter.init (sentences : List (List Int)) (batch_size : Nat)
    (invalid_label : Int) (buckets : Option (List Nat))
    (data_name label_name : String) :
    Except InitError BucketSentenceIter :=
  let bks := (resolveBuckets sentences batch_size buckets).insertionSort (fun a b => a ≤ b)
  let adata := sentences.foldl (assignStep bks invalid_label) (bks.map (fun _ => []), 0)
  match bks.max? with
  | none => .error .maxEmpty
  | some m =>
    .ok { data := adata.1
          default_bucket_key := m
          provide_data := [(data_name, (batch_size, m))]
          provide_label := [(label_name, (batch_size, m))]
          batch_size := batch_size
          buckets := bks
          data_name := data_name
          label_name := label_name
          invalid_label := invalid_label
          idx := (List.range adata.1.length).flatMap
            (fun i => (batchStarts (adata.1.getD i []).length batch_size).map (fun j => (i, j)))
          curr_idx := 0
          ndiscard := adata.2 }

/-- The stop / error conditions of `BucketSentenceIter.next`:
`StopIteration` at the end of the index table, and the numpy `IndexError`
raised by `label[:, -1] = ...` when the bucket width is zero. -/
inductive NextError
  | stopIteration
  | indexError
deriving DecidableEq, Repr

/-- The `DataBatch` object emitted by `next()`. -/
structure DataBatch where
  data : List (List Int)
  label : List (List Int)
  bucket_key : Nat
  provide_data : List (String × Nat × Nat)
  provide_label : List (String × Nat × Nat)
deriving DecidableEq, Repr

/-- `BucketSentenceIter.next`. -/
def BucketSentenceIter.next (st : BucketSentenceIter) :
    Except NextError (DataBatch × BucketSentenceIter) :=
  if st.curr_idx = st.idx.length then .error .stopIteration
  else
    let ij := st.idx.getD st.curr_idx (0, 0)
    let st' := { st with curr_idx := st.curr_idx + 1 }
    let dataB := ((st.data.getD ij.1 []).drop ij.2).take st.batch_size
    if dataB.any (fun row => row.isEmpty) then .error .indexError
    else
      let shape : Nat × Nat := (dataB.length, (dataB.headD []).length)
      .ok ({ data := dataB
             label := dataB.map (fun row => row.drop 1 ++ [st.invalid_label])
             bucket_key := st.buckets.getD ij.1 0
             provide_data := [(st.data_name, shape)]
             provide_label := [(st.label_name, shape)] }, st')

/-- Models Python's `random.shuffle` / `np.random.shuffle` (standard-library
in-place uniform shuffles, external to this file): parameterized by a stream
of random draws, it repeatedly extracts the element at a drawn position.
For every draw stream the result is a permutation of the input. -/
def shuffleModel {α : Type*} : List Nat → List α → List α
  | _, [] => []
  | [], l => l
  | r :: rs, x :: l =>
    let j := r % (l.length + 1)
    (x :: l).getD j x :: shuffleModel rs ((x :: l).eraseIdx j)
termination_by _ l => l.length
decreasing_by
  have h : r % (l.length + 1) < l.length + 1 := Nat.mod_lt _ (Nat.succ_pos _)
  simp [List.length_eraseIdx, h]

/-- `BucketSentenceIter.reset`: cursor to 0, shuffle the index table, shuffle
each bucket's rows (`for buck in self.data: np.random.shuffle(buck)`), the
shuffles drawing from independent randomness streams. -/
def BucketSentenceIter.reset (st : BucketSentenceIter)
    (ridx : List Nat) (rdata : Nat → List Nat) : BucketSentenceIter :=
  { st with curr_idx := 0
            idx := shuffleModel ridx st.idx
            data := (List.range st.data.length).map
              (fun i => shuffleModel (rdata i) (st.data.getD i [])) }

/-- Number of successful `next()` calls made before the first exception, with
explicit fuel. -/
def runFuel : Nat → BucketSentenceIter → Nat
  | 0, _ => 0
  | n + 1, st =>
    match st.next with
    | .ok (_, st') => runFuel n st' + 1
    | .error _ => 0

/-- The exception that ends a run of `next()` calls, with explicit fuel. -/
def runErr : Nat → BucketSentenceIter → Option NextError
  | 0, _ => none
  | n + 1, st =>
    match st.next with
    | .ok (_, st') => runErr n st'
    | .error e => some e

/-- Number of successful `next()` calls before the epoch's first exception
(fuel `idx.length + 1` always suffices to reach it). -/
def epochBatches (st : BucketSentenceIter) : Nat := runFuel (st.idx.length + 1) st

/-- The first index at which a bucket of at least the wanted width appears:
the spec's "smallest bucket whose width ≥ its length" (buckets ascending). -/
def leastFit (buckets : List Nat) (len : Nat) : Option Nat :=
  (List.range buckets.length).find? (fun j => decide (len ≤ buckets.getD j 0))

/-- The bucket list in the words of the derivation claim: the ascending
sequence of distinct positive sentence lengths whose sentence count is at
least `batch_size` (stated from the spec, for comparison with the code's
`derivedBuckets`). -/
def specPositiveBuckets (sentences : List (List Int)) (batch_size : Nat) : List Nat :=
  (List.range ((sentences.map List.length).foldr Nat.max 0 + 1)).filter
    (fun n => decide (0 < n) && decide (batch_size ≤ (sentences.map List.length).count n))

/-- Invariant of the open-vocabulary encoder state: only `invalid_key` maps to
`invalid_label`, every other assigned index is below the running counter, and
no index is assigned twice. -/
def VocabInv (invalid_label : Int) (invalid_key : String) (st : EncSt) : Prop :=
  (∀ p ∈ st.vocab, p.2 = invalid_label → p.1 = invalid_key) ∧
  (∀ p ∈ st.vocab, p.2 ≠ invalid_label → p.2 < st.idx) ∧
  (st.vocab.map Prod.snd).Nodup


/-! ### Encoder lemmas -/

theorem dictGet_append_left {v t : List (String × Int)} {w : String} {x : Int}
    (h : dictGet v w = some x) : dictGet (v ++ t) w = some x := by
  simp only [dictGet, List.find?_append]
  cases hf : List.find? (fun p => p.1 == w) v with
  | none => rw [dictGet, hf] at h; simp at h
  | some p =>
    rw [dictGet, hf] at h
    simpa using h

theorem dictGet_append_self {v : List (String × Int)} {w : String} {x : Int}
    (h : dictGet v w = none) : dictGet (v ++ [(w, x)]) w = some x := by
  have hf : List.find? (fun p => p.1 == w) v = none := by
    rw [dictGet] at h
    cases hf : List.find? (fun p => p.1 == w) v with
    | none => rfl
    | some p => rw [hf] at h; simp at h
  simp [dictGet, List.find?_append, hf]

theorem encodeWord_ok {nv : Bool} {inv : Int} (key : String) {st : EncSt} {w : String}
    {v : Int} {st' : EncSt} (h : encodeWord nv inv st w = .ok (v, st')) :
    (∃ t, st'.vocab = st.vocab ++ t) ∧ st.idx ≤ st'.idx ∧
    dictGet st'.vocab w = some v ∧
    (VocabInv inv key st → VocabInv inv key st') := by
  rw [encodeWord] at h
  cases hd : dictGet st.vocab w with
  | some v0 =>
    rw [hd] at h
    simp only [Except.ok.injEq, Prod.mk.injEq] at h
    obtain ⟨hv, hst⟩ := h
    subst hv; subst hst
    exact ⟨⟨[], by simp⟩, le_refl _, hd, fun hI => hI⟩
  | none =>
    rw [hd] at h
    cases nv with
    | false => simp at h
    | true =>
      simp only [if_true] at h
      simp only [Except.ok.injEq, Prod.mk.injEq] at h
      obtain ⟨hv, hst⟩ := h
      subst hv
      have hidx' : st.idx ≤ (if st.idx = inv then st.idx + 1 else st.idx) := by
        split <;> omega
      have hne : (if st.idx = inv then st.idx + 1 else st.idx) ≠ inv := by
        split <;> omega
      refine ⟨⟨[(w, if st.idx = inv then st.idx + 1 else st.idx)], by rw [← hst]⟩, ?_, ?_, ?_⟩
      · rw [← hst]; simp only []; omega
      · rw [← hst]
        exact dictGet_append_self hd
      · intro ⟨h1, h2, h3⟩
        rw [← hst]
        refine ⟨?_, ?_, ?_⟩
        · intro p hp hpv
          simp only [List.mem_append, List.mem_singleton] at hp
          rcases hp with hp | hp
          · exact h1 p hp hpv
          · subst hp; exact absurd hpv hne
        · intro p hp hpv
          simp only [List.mem_append, List.mem_singleton] at hp
          rcases hp with hp | hp
          · by_cases hpe : p.2 = inv
            · exact absurd hpe hpv
            · have := h2 p hp hpe; simp only []; omega
          · subst hp; simp only []; omega
        · simp only [List.map_append, List.map_cons, List.map_nil]
          rw [List.nodup_append]
          refine ⟨h3, List.nodup_singleton _, ?_⟩
          intro a ha
          simp only [List.mem_singleton]
          intro hav
          subst hav
          simp only [List.mem_map] at ha
          obtain ⟨p, hp, hpv⟩ := ha
          by_cases hpe : p.2 = inv
          · rw [hpe] at hpv; exact hne hpv.symm
          · have := h2 p hp hpe; omega

theorem encodeSent_cons_err {nv : Bool} {inv : Int} {st : EncSt} {w : String}
    {e : EncError} (ws : List String) (he : encodeWord nv inv st w = .error e) :
    encodeSent nv inv st (w :: ws) = .error e := by
  rw [encodeSent, he]

theorem encodeSent_cons_ok {nv : Bool} {inv : Int} {st : EncSt} {w : String} {v : Int}
    {st1 : EncSt} (ws : List String) (he : encodeWord nv inv st w = .ok (v, st1)) :
    encodeSent nv inv st (w :: ws) =
      match encodeSent nv inv st1 ws with
      | .error e => .error e
      | .ok (vs, st2) => .ok (v :: vs, st2) := by
  rw [encodeSent, he]

theorem encodeSents_cons_err {nv : Bool} {inv : Int} {st : EncSt} {s : List String}
    {e : EncError} (ss : List (List String)) (he : encodeSent nv inv st s = .error e) :
    encodeSents nv inv st (s :: ss) = .error e := by
  rw [encodeSents, he]

theorem encodeSents_cons_ok {nv : Bool} {inv : Int} {st : EncSt} {s : List String}
    {vs : List Int} {st1 : EncSt} (ss : List (List String))
    (he : encodeSent nv inv st s = .ok (vs, st1)) :
    encodeSents nv inv st (s :: ss) =
      match encodeSents nv inv st1 ss with
      | .error e => .error e
      | .ok (rest, st2) => .ok (vs :: rest, st2) := by
  rw [encodeSents, he]

theorem encodeSent_ok (nv : Bool) (inv : Int) (key : String) :
    ∀ (ws : List String) (st : EncSt) (vs : List Int) (st' : EncSt),
    encodeSent nv inv st ws = .ok (vs, st') →
    (∃ t, st'.vocab = st.vocab ++ t) ∧ st.idx ≤ st'.idx ∧
    (VocabInv inv key st → VocabInv inv key st') ∧
    vs.length = ws.length ∧
    (∀ k, k < ws.length → dictGet st'.vocab (ws.getD k "") = some (vs.getD k 0)) := by
  intro ws
  induction ws with
  | nil =>
    intro st vs st' h
    rw [encodeSent] at h
    simp only [Except.ok.injEq, Prod.mk.injEq] at h
    obtain ⟨hv, hst⟩ := h
    subst hv; subst hst
    exact ⟨⟨[], by simp⟩, le_refl _, fun hI => hI, rfl, fun k hk => absurd hk (by simp)⟩
  | cons w ws ih =>
    intro st vs st' h
    cases he : encodeWord nv inv st w with
    | error e => rw [encodeSent_cons_err ws he] at h; simp at h
    | ok p =>
      obtain ⟨v, st1⟩ := p
      rw [encodeSent_cons_ok ws he] at h
      cases hs : encodeSent nv inv st1 ws with
      | error e => rw [hs] at h; simp at h
      | ok q =>
        obtain ⟨vs2, st2⟩ := q
        rw [hs] at h
        simp only [Except.ok.injEq, Prod.mk.injEq] at h
        obtain ⟨hv, hst⟩ := h
        subst hv; subst hst
        obtain ⟨⟨t1, ht1⟩, hi1, hg1, hp1⟩ := encodeWord_ok key he
        obtain ⟨⟨t2, ht2⟩, hi2, hp2, hlen, hlook⟩ := ih st1 vs2 st2 hs
        refine ⟨⟨t1 ++ t2, by rw [ht2, ht1, List.append_assoc]⟩, le_trans hi1 hi2,
          fun hI => hp2 (hp1 hI), by simp [hlen], ?_⟩
        intro k hk
        cases k with
        | zero =>
          simp only [List.getD_cons_zero]
          rw [ht2]
          exact dictGet_append_left hg1
        | succ k =>
          simp only [List.getD_cons_succ]
          exact hlook k (by simpa using hk)

theorem encodeSents_ok (nv : Bool) (inv : Int) (key : String) :
    ∀ (ss : List (List String)) (st : EncSt) (res : List (List Int)) (st' : EncSt),
    encodeSents nv inv st ss = .ok (res, st') →
    (∃ t, st'.vocab = st.vocab ++ t) ∧ st.idx ≤ st'.idx ∧
    (VocabInv inv key st → VocabInv inv key st') ∧
    res.length = ss.length ∧
    (∀ si, si < ss.length →
      (res.getD si []).length = (ss.getD si []).length ∧
      ∀ wi, wi < (ss.getD si []).length →
        dictGet st'.vocab ((ss.getD si []).getD wi "") =
          some ((res.getD si []).getD wi 0)) := by
  intro ss
  induction ss with
  | nil =>
    intro st res st' h
    rw [encodeSents] at h
    simp only [Except.ok.injEq, Prod.mk.injEq] at h
    obtain ⟨hv, hst⟩ := h
    subst hv; subst hst
    exact ⟨⟨[], by simp⟩, le_refl _, fun hI => hI, rfl, fun si hsi => absurd hsi (by simp)⟩
  | cons s ss ih =>
    intro st res st' h
    cases he : encodeSent nv inv st s with
    | error e => rw [encodeSents_cons_err ss he] at h; simp at h
    | ok p =>
      obtain ⟨vs, st1⟩ := p
      rw [encodeSents_cons_ok ss he] at h
      cases hs : encodeSents nv inv st1 ss with
      | error e => rw [hs] at h; simp at h
      | ok q =>
        obtain ⟨rest, st2⟩ := q
        rw [hs] at h
        simp only [Except.ok.injEq, Prod.mk.injEq] at h
        obtain ⟨hv, hst⟩ := h
        subst hv; subst hst
        obtain ⟨⟨t1, ht1⟩, hi1, hp1, hlen1, hlook1⟩ := encodeSent_ok nv inv key s st vs st1 he
        obtain ⟨⟨t2, ht2⟩, hi2, hp2, hlen2, hlook2⟩ := ih st1 rest st2 hs
        refine ⟨⟨t1 ++ t2, by rw [ht2, ht1, List.append_assoc]⟩, le_trans hi1 hi2,
          fun hI => hp2 (hp1 hI), by simp [hlen2], ?_⟩
        intro si hsi
        cases si with
        | zero =>
          simp only [List.getD_cons_zero]
          refine ⟨hlen1, ?_⟩
          intro wi hwi
          rw [ht2]
          exact dictGet_append_left (hlook1 wi hwi)
        | succ si =>
          simp only [List.getD_cons_succ]
          exact hlook2 si (by simpa using hsi)

theorem dictGet_mem {vocab : List (String × Int)} {w : String} {v : Int}
    (h : dictGet vocab w = some v) : (w, v) ∈ vocab := by
  rw [dictGet] at h
  cases hf : vocab.find? (fun p => p.1 == w) with
  | none => rw [hf] at h; simp at h
  | some p =>
    rw [hf] at h
    simp only [Option.map_some', Option.some.injEq] at h
    have hp := List.find?_some hf
    have hm := List.mem_of_find?_eq_some hf
    obtain ⟨a, b⟩ := p
    simp only [beq_iff_eq] at hp
    subst hp
    have hb : b = v := h
    subst hb
    exact hm

theorem decode_of_nodup :
    ∀ (vocab : List (String × Int)) (w : String) (v : Int),
    (vocab.map Prod.snd).Nodup → (w, v) ∈ vocab → decodeTok vocab v = some w := by
  intro vocab
  induction vocab with
  | nil => intro w v _ hm; simp at hm
  | cons q rest ih =>
    intro w v hnd hm
    rw [List.map_cons, List.nodup_cons] at hnd
    obtain ⟨hq, hnd'⟩ := hnd
    by_cases hqv : q.2 = v
    · have hfind : (q :: rest).find? (fun p => p.2 == v) = some q :=
        List.find?_cons_of_pos _ (by simp [hqv])
      rcases List.mem_cons.mp hm with hqe | hmr
      · rw [decodeTok, hfind]
        simp [← hqe]
      · exfalso
        exact hq (by rw [hqv]; exact List.mem_map.mpr ⟨(w, v), hmr, rfl⟩)
    · have hm' : (w, v) ∈ rest := by
        rcases List.mem_cons.mp hm with he | hmr
        · exact absurd (congrArg Prod.snd he.symm) hqv
        · exact hmr
      have hskip : (q :: rest).find? (fun p => p.2 == v) = rest.find? (fun p => p.2 == v) :=
        List.find?_cons_of_neg _ (by simp [hqv])
      rw [decodeTok, hskip]
      exact ih w v hnd' hm'

theorem initial_vocab_inv (inv : Int) (key : String) (start : Int) :
    VocabInv inv key { vocab := [(key, inv)], idx := start } := by
  refine ⟨?_, ?_, ?_⟩
  · intro p hp _
    simp only [List.mem_singleton] at hp
    rw [hp]
  · intro p hp hne
    simp only [List.mem_singleton] at hp
    rw [hp] at hne
    simp at hne
  · simp

theorem encode_sentences_none_ok {sentences : List (List String)} {inv : Int}
    {key : String} {start : Int} {res : List (List Int)} {vocab : List (String × Int)}
    (h : encode_sentences sentences none inv key start = .ok (res, vocab)) :
    ∃ st', encodeSents true inv { vocab := [(key, inv)], idx := start } sentences =
      .ok (res, st') ∧ vocab = st'.vocab := by
  rw [encode_sentences] at h
  simp only [Option.isNone_none] at h
  cases hs : encodeSents true inv { vocab := [(key, inv)], idx := start } sentences with
  | error e => rw [hs] at h; simp at h
  | ok q =>
    obtain ⟨res0, st'⟩ := q
    rw [hs] at h
    simp only [Except.ok.injEq, Prod.mk.injEq] at h
    exact ⟨st', by rw [← h.1], h.2.symm⟩

/-- Claim C5: for every call to `encode_sentences` with `vocab=None`, for every
value of `start_label` and `invalid_label`, no token is ever assigned the index
`invalid_label`: in the returned vocabulary only `invalid_key` maps to
`invalid_label`, even when `start_label` equals `invalid_label`. -/
theorem encode_reserved_invalid_index
    (sentences : List (List String)) (invalid_label : Int) (invalid_key : String)
    (start_label : Int) (res : List (List Int)) (vocab : List (String × Int))
    (h : encode_sentences sentences none invalid_label invalid_key start_label =
      .ok (res, vocab)) :
    ∀ p ∈ vocab, p.2 = invalid_label → p.1 = invalid_key := by
  obtain ⟨st', hs, hv⟩ := encode_sentences_none_ok h
  obtain ⟨_, _, hinv, _⟩ :=
    encodeSents_ok true invalid_label invalid_key sentences _ res st' hs
  have hI := hinv (initial_vocab_inv invalid_label invalid_key start_label)
  rw [hv]
  exact hI.1

/-- Witness for C5 at a concrete input where `start_label = invalid_label = 0`:
the collision is skipped and `"a"` receives index 1, not 0. -/
theorem encode_reserved_invalid_index_witness :
    encode_sentences [["a"]] none 0 "\n" 0 = .ok ([[1]], [("\n", 0), ("a", 1)]) ∧
    ((("\n", (0 : Int)).2 = 0 → ("\n", (0 : Int)).1 = "\n")) :=
  ⟨by decide,
    encode_reserved_invalid_index [["a"]] 0 "\n" 0 [[1]] [("\n", 0), ("a", 1)]
      (by decide) ("\n", 0) (by decide)⟩

/-- Claim C8: encoding with `vocab=None` and decoding each integer through the
inverse of the returned vocabulary reproduces every sentence, with shape and
order preserved. -/
theorem encode_roundtrip
    (sentences : List (List String)) (invalid_label : Int) (invalid_key : String)
    (start_label : Int) (res : List (List Int)) (vocab : List (String × Int))
    (h : encode_sentences sentences none invalid_label invalid_key start_label =
      .ok (res, vocab)) :
    res.length = sentences.length ∧
    ∀ si, si < sentences.length →
      (res.getD si []).length = (sentences.getD si []).length ∧
      ∀ wi, wi < (sentences.getD si []).length →
        decodeTok vocab ((res.getD si []).getD wi 0) =
          some ((sentences.getD si []).getD wi "") := by
  obtain ⟨st', hs, hv⟩ := encode_sentences_none_ok h
  obtain ⟨_, _, hinv, hlen, hlook⟩ :=
    encodeSents_ok true invalid_label invalid_key sentences _ res st' hs
  have hI := hinv (initial_vocab_inv invalid_label invalid_key start_label)
  subst hv
  refine ⟨hlen, ?_⟩
  intro si hsi
  obtain ⟨hslen, hw⟩ := hlook si hsi
  refine ⟨hslen, ?_⟩
  intro wi hwi
  exact decode_of_nodup _ _ _ hI.2.2 (dictGet_mem (hw wi hwi))

/-- Witness for C8 at a concrete input: token `"b"` encoded at position (0,1)
decodes back to `"b"`. -/
theorem encode_roundtrip_witness :
    encode_sentences [["a", "b"], ["b"]] none (-1) "\n" 0 =
      .ok ([[0, 1], [1]], [("\n", -1), ("a", 0), ("b", 1)]) ∧
    decodeTok [("\n", -1), ("a", 0), ("b", 1)] 1 = some "b" :=
  ⟨by decide,
    ((encode_roundtrip [["a", "b"], ["b"]] (-1) "\n" 0 [[0, 1], [1]]
        [("\n", -1), ("a", 0), ("b", 1)] (by decide)).2 0 (by decide)).2 1 (by decide)⟩

theorem encodeWord_closed_some (inv : Int) {st : EncSt} {w : String} {v : Int}
    (hd : dictGet st.vocab w = some v) :
    encodeWord false inv st w = .ok (v, st) := by
  rw [encodeWord, hd]

theorem encodeWord_closed_none {inv : Int} {st : EncSt} {w : String}
    (hd : dictGet st.vocab w = none) :
    encodeWord false inv st w = .error { msg := "Unknow token " ++ w, vocab := st.vocab } := by
  rw [encodeWord, hd]
  simp

theorem encodeSent_closed (inv : Int) :
    ∀ (ws : List String) (st : EncSt),
    ((∀ w ∈ ws, (dictGet st.vocab w).isSome) →
        ∃ vs, encodeSent false inv st ws = .ok (vs, st)) ∧
    ((∃ w ∈ ws, dictGet st.vocab w = none) →
        ∃ w, w ∈ ws ∧ dictGet st.vocab w = none ∧
          encodeSent false inv st ws =
            .error { msg := "Unknow token " ++ w, vocab := st.vocab }) := by
  intro ws
  induction ws with
  | nil =>
    intro st
    constructor
    · intro _; exact ⟨[], by rw [encodeSent]⟩
    · rintro ⟨w, hw, _⟩; simp at hw
  | cons w ws ih =>
    intro st
    cases hd : dictGet st.vocab w with
    | none =>
      constructor
      · intro hall
        have := hall w (by simp)
        rw [hd] at this
        simp at this
      · intro _
        exact ⟨w, by simp, hd, encodeSent_cons_err ws (encodeWord_closed_none hd)⟩
    | some v =>
      have hstep := encodeSent_cons_ok ws (encodeWord_closed_some inv hd)
      constructor
      · intro hall
        obtain ⟨vs, hvs⟩ := (ih st).1 (fun w' hw' => hall w' (by simp [hw']))
        exact ⟨v :: vs, by rw [hstep, hvs]⟩
      · rintro ⟨w', hw', hnone⟩
        have hw'' : w' ∈ ws := by
          rcases List.mem_cons.mp hw' with he | hm
          · subst he; rw [hd] at hnone; simp at hnone
          · exact hm
        obtain ⟨wbad, hmem, hnb, herr2⟩ := (ih st).2 ⟨w', hw'', hnone⟩
        exact ⟨wbad, by simp [hmem], hnb, by rw [hstep, herr2]⟩

theorem encodeSents_closed (inv : Int) :
    ∀ (ss : List (List String)) (st : EncSt),
    ((∀ s ∈ ss, ∀ w ∈ s, (dictGet st.vocab w).isSome) →
        ∃ res, encodeSents false inv st ss = .ok (res, st)) ∧
    ((∃ s ∈ ss, ∃ w ∈ s, dictGet st.vocab w = none) →
        ∃ w, (∃ s ∈ ss, w ∈ s) ∧ dictGet st.vocab w = none ∧
          encodeSents false inv st ss =
            .error { msg := "Unknow token " ++ w, vocab := st.vocab }) := by
  intro ss
  induction ss with
  | nil =>
    intro st
    constructor
    · intro _; exact ⟨[], by rw [encodeSents]⟩
    · rintro ⟨s, hs, _⟩; simp at hs
  | cons s ss ih =>
    intro st
    rcases hcase : decide (∃ w ∈ s, dictGet st.vocab w = none) with _ | _
    · -- every word of s is present
      have hall : ∀ w ∈ s, (dictGet st.vocab w).isSome := by
        have := of_decide_eq_false hcase
        push_neg at this
        intro w hw
        cases hg : dictGet st.vocab w with
        | none => exact absurd hg (this w hw)
        | some v => simp
      obtain ⟨vs, hvs⟩ := (encodeSent_closed inv s st).1 hall
      have hstep := encodeSents_cons_ok ss hvs
      constructor
      · intro hall2
        obtain ⟨res, hres⟩ := (ih st).1 (fun s' hs' => hall2 s' (by simp [hs']))
        exact ⟨vs :: res, by rw [hstep, hres]⟩
      · rintro ⟨s', hs', w', hw', hnone⟩
        have hs'' : s' ∈ ss := by
          rcases List.mem_cons.mp hs' with he | hm
          · subst he
            have := hall w' hw'
            rw [hnone] at this
            simp at this
          · exact hm
        obtain ⟨wbad, ⟨sbad, hsbad, hwbad⟩, hnb, herr⟩ := (ih st).2 ⟨s', hs'', w', hw', hnone⟩
        exact ⟨wbad, ⟨sbad, by simp [hsbad], hwbad⟩, hnb, by rw [hstep, herr]⟩
    · -- s contains an absent word: the whole call fails on s
      have habs := of_decide_eq_true hcase
      obtain ⟨wbad, hmem, hnb, herr⟩ := (encodeSent_closed inv s st).2 habs
      refine ⟨?_, ?_⟩
      · intro hall2
        obtain ⟨w0, hw0, hn0⟩ := habs
        have := hall2 s (by simp) w0 hw0
        rw [hn0] at this
        simp at this
      · intro _
        exact ⟨wbad, ⟨s, by simp, hmem⟩, hnb, encodeSents_cons_err ss herr⟩

theorem encode_sentences_some_eq (sentences : List (List String))
    (v0 : List (String × Int)) (inv : Int) (key : String) (start : Int) :
    encode_sentences sentences (some v0) inv key start =
      match encodeSents false inv { vocab := v0, idx := start } sentences with
      | .error e => .error e
      | .ok (res, st) => .ok (res, st.vocab) := by
  rw [encode_sentences]
  simp only [Option.isNone_some]

/-- Claim C7: with a supplied (closed) vocabulary, if some token is absent the
call fails with the assertion error naming an absent token and the vocabulary
is left exactly as supplied (the error carries the dict at failure time); if
every token is present the call succeeds and returns the vocabulary unchanged. -/
theorem encode_closed_vocab_behavior
    (sentences : List (List String)) (v0 : List (String × Int))
    (invalid_label : Int) (invalid_key : String) (start_label : Int) :
    ((∀ s ∈ sentences, ∀ w ∈ s, (dictGet v0 w).isSome) →
        ∃ res, encode_sentences sentences (some v0) invalid_label invalid_key start_label =
          .ok (res, v0)) ∧
    ((∃ s ∈ sentences, ∃ w ∈ s, dictGet v0 w = none) →
        ∃ w, (∃ s ∈ sentences, w ∈ s) ∧ dictGet v0 w = none ∧
          encode_sentences sentences (some v0) invalid_label invalid_key start_label =
            .error { msg := "Unknow token " ++ w, vocab := v0 }) := by
  constructor
  · intro hall
    obtain ⟨res, hres⟩ :=
      (encodeSents_closed invalid_label sentences { vocab := v0, idx := start_label }).1 hall
    exact ⟨res, by rw [encode_sentences_some_eq, hres]⟩
  · intro habs
    obtain ⟨w, hocc, hnone, herr⟩ :=
      (encodeSents_closed invalid_label sentences { vocab := v0, idx := start_label }).2 habs
    exact ⟨w, hocc, hnone, by rw [encode_sentences_some_eq, herr]⟩

/-- Witness for C7 at concrete inputs: a present token succeeds with the
vocabulary unchanged; an absent token fails with the naming assertion error. -/
theorem encode_closed_vocab_behavior_witness :
    (∃ res, encode_sentences [["a"]] (some [("a", 5)]) (-1) "\n" 0 = .ok (res, [("a", 5)])) ∧
    (∃ w, (∃ s ∈ [["b"]], w ∈ s) ∧ dictGet [("a", 5)] w = none ∧
      encode_sentences [["b"]] (some [("a", 5)]) (-1) "\n" 0 =
        .error { msg := "Unknow token " ++ w, vocab := [("a", 5)] }) :=
  ⟨(encode_closed_vocab_behavior [["a"]] [("a", 5)] (-1) "\n" 0).1 (by decide),
    (encode_closed_vocab_behavior [["b"]] [("a", 5)] (-1) "\n" 0).2 (by decide)⟩

/-! ### Bucketing-iterator lemmas -/

theorem bisect_left_le_length (l : List Nat) (x : Nat) : bisect_left l x ≤ l.length := by
  induction l with
  | nil => simp [bisect_left]
  | cons a t ih =>
    rw [bisect_left, List.takeWhile_cons]
    split
    · simpa [bisect_left] using ih
    · simp

theorem bisect_left_lt_of_lt (l : List Nat) (x : Nat) :
    ∀ j, j < bisect_left l x → l.getD j 0 < x := by
  induction l with
  | nil => intro j hj; simp [bisect_left] at hj
  | cons a t ih =>
    intro j hj
    rw [bisect_left, List.takeWhile_cons] at hj
    by_cases ha : a < x
    · simp only [decide_eq_true ha, if_true, List.length_cons] at hj
      cases j with
      | zero => simpa using ha
      | succ j =>
        simp only [List.getD_cons_succ]
        exact ih j (by rw [bisect_left]; omega)
    · simp [ha] at hj
  
theorem bisect_left_ge (l : List Nat) (x : Nat) (h : bisect_left l x < l.length) :
    x ≤ l.getD (bisect_left l x) 0 := by
  induction l with
  | nil => simp at h
  | cons a t ih =>
    by_cases ha : a < x
    · have hb : bisect_left (a :: t) x = bisect_left t x + 1 := by
        rw [bisect_left, bisect_left, List.takeWhile_cons, decide_eq_true ha]
        simp
      rw [hb]
      simp only [List.getD_cons_succ]
      exact ih (by rw [List.length_cons] at h; omega)
    · have hb : bisect_left (a :: t) x = 0 := by
        rw [bisect_left, List.takeWhile_cons]
        simp [ha]
      rw [hb]
      simpa using Nat.le_of_not_lt ha

theorem bisect_left_eq_length_iff (l : List Nat) (x : Nat) :
    bisect_left l x = l.length ↔ ∀ b ∈ l, b < x := by
  induction l with
  | nil => simp [bisect_left]
  | cons a t ih =>
    by_cases ha : a < x
    · have hb : bisect_left (a :: t) x = bisect_left t x + 1 := by
        rw [bisect_left, bisect_left, List.takeWhile_cons, decide_eq_true ha]
        simp
      rw [hb, List.length_cons]
      constructor
      · intro h b hm
        rcases List.mem_cons.mp hm with he | hmt
        · subst he; exact ha
        · exact (ih.mp (by omega)) b hmt
      · intro h
        have := ih.mpr (fun b hb => h b (by simp [hb]))
        omega
    · have hb : bisect_left (a :: t) x = 0 := by
        rw [bisect_left, List.takeWhile_cons]
        simp [ha]
      rw [hb, List.length_cons]
      constructor
      · omega
      · intro h; exact absurd (h a (by simp)) ha

theorem foldr_max_ge (l : List Nat) : ∀ x ∈ l, x ≤ l.foldr Nat.max 0 := by
  induction l with
  | nil => simp
  | cons a t ih =>
    intro x hx
    rcases List.mem_cons.mp hx with he | hm
    · subst he; exact Nat.le_max_left _ _
    · exact le_trans (ih x hm) (Nat.le_max_right _ _)

theorem max?_spec (l : List Nat) (m : Nat) (h : l.max? = some m) :
    m ∈ l ∧ ∀ b ∈ l, b ≤ m := by
  induction l generalizing m with
  | nil => simp at h
  | cons a t ih =>
    rw [List.max?_cons] at h
    simp only [Option.some.injEq] at h
    cases ht : t.max? with
    | none =>
      rw [ht] at h
      simp only [Option.elim_none] at h
      have htn : t = [] := List.max?_eq_none_iff.mp ht
      subst htn
      subst h
      exact ⟨by simp, by simp⟩
    | some m' =>
      rw [ht] at h
      simp only [Option.elim_some] at h
      obtain ⟨hm', hall⟩ := ih m' ht
      subst h
      constructor
      · rcases max_choice a m' with hc | hc
        · rw [hc]; simp
        · rw [hc]; exact List.mem_cons_of_mem _ hm'
      · intro b hb
        rcases List.mem_cons.mp hb with he | hmt
        · subst he; exact Nat.le_max_left _ _
        · exact le_trans (hall b hmt) (Nat.le_max_right _ _)

theorem bisect_eq_length_iff_max_lt (l : List Nat) (m x : Nat) (hm : l.max? = some m) :
    bisect_left l x = l.length ↔ m < x := by
  obtain ⟨hmem, hall⟩ := max?_spec l m hm
  rw [bisect_left_eq_length_iff]
  constructor
  · intro h; exact h m hmem
  · intro h b hb; exact lt_of_le_of_lt (hall b hb) h

theorem getD_set {α : Type*} (l : List α) (i j : Nat) (a : α) (d : α) :
    (l.set i a).getD j d = if i = j ∧ i < l.length then a else l.getD j d := by
  rw [List.getD_eq_getElem?_getD, List.getD_eq_getElem?_getD, List.getElem?_set]
  by_cases hij : i = j
  · subst hij
    by_cases hlen : i < l.length
    · simp [hlen]
    · rw [if_pos rfl, if_neg hlen, List.getElem?_eq_none (by omega)]
      simp [hlen]
  · simp [hij]

theorem getD_map_range {β : Type*} (n : Nat) (g : Nat → β) (d : β) (i : Nat) :
    ((List.range n).map g).getD i d = if i < n then g i else d := by
  rw [List.getD_eq_getElem?_getD, List.getElem?_map]
  by_cases h : i < n
  · rw [List.getElem?_range h]; simp [h]
  · rw [List.getElem?_eq_none (by simp; omega)]
    simp [h]

theorem map_range_getD {α β : Type*} (l : List α) (d : α) (f : α → β) :
    (List.range l.length).map (fun i => f (l.getD i d)) = l.map f := by
  apply List.ext_getElem?
  intro n
  rw [List.getElem?_map, List.getElem?_map]
  by_cases h : n < l.length
  · rw [List.getElem?_range (by simpa using h), List.getElem?_eq_getElem h]
    simp only [Option.map_some']
    rw [List.getD_eq_getElem l d h]
  · rw [List.getElem?_eq_none (by simpa using Nat.le_of_not_lt h),
      List.getElem?_eq_none (Nat.le_of_not_lt h)]
    simp

theorem assign_foldl (bl : List Nat) (inv : Int) :
    ∀ (l : List (List Int)) (acc : List (List (List Int)) × Nat),
    acc.1.length = bl.length →
    (l.foldl (assignStep bl inv) acc).1.length = bl.length ∧
    (l.foldl (assignStep bl inv) acc).2 =
      acc.2 + l.countP (fun s => decide (bisect_left bl s.length = bl.length)) ∧
    ∀ j, j < bl.length →
      (l.foldl (assignStep bl inv) acc).1.getD j [] =
        acc.1.getD j [] ++
          (l.filter (fun s => decide (bisect_left bl s.length = j))).map
            (fun s => padTo (bl.getD j 0) inv s) := by
  intro l
  induction l with
  | nil =>
    intro acc hlen
    refine ⟨hlen, by simp, ?_⟩
    intro j _
    simp
  | cons s l ih =>
    intro acc hlen
    rw [List.foldl_cons]
    by_cases hbk : bisect_left bl s.length = bl.length
    · have hstep : assignStep bl inv acc s = (acc.1, acc.2 + 1) := by
        rw [assignStep]
        simp [hbk]
      rw [hstep]
      obtain ⟨h1, h2, h3⟩ := ih (acc.1, acc.2 + 1) hlen
      refine ⟨h1, ?_, ?_⟩
      · rw [h2, List.countP_cons]
        simp [hbk]
        omega
      · intro j hj
        rw [h3 j hj, List.filter_cons]
        have : ¬ bisect_left bl s.length = j := by omega
        simp [this]
    · have hblt : bisect_left bl s.length < bl.length :=
        lt_of_le_of_ne (bisect_left_le_length bl s.length) hbk
      have hstep : assignStep bl inv acc s =
          (acc.1.set (bisect_left bl s.length)
            (acc.1.getD (bisect_left bl s.length) [] ++
              [padTo (bl.getD (bisect_left bl s.length) 0) inv s]), acc.2) := by
        rw [assignStep]
        simp [hbk]
      rw [hstep]
      have hlen' : (acc.1.set (bisect_left bl s.length)
          (acc.1.getD (bisect_left bl s.length) [] ++
            [padTo (bl.getD (bisect_left bl s.length) 0) inv s])).length = bl.length := by
        rw [List.length_set]; exact hlen
      obtain ⟨h1, h2, h3⟩ := ih (acc.1.set (bisect_left bl s.length)
          (acc.1.getD (bisect_left bl s.length) [] ++
            [padTo (bl.getD (bisect_left bl s.length) 0) inv s]), acc.2) hlen'
      refine ⟨h1, ?_, ?_⟩
      · rw [h2, List.countP_cons]
        simp [hbk]
      · intro j hj
        rw [h3 j hj, getD_set, List.filter_cons]
        by_cases hej : bisect_left bl s.length = j
        · rw [if_pos ⟨hej, by omega⟩]
          simp only [decide_eq_true hej, if_true, List.map_cons]
          rw [hej, List.append_assoc]
          simp
        · rw [if_neg (by tauto)]
          simp [hej]

theorem getD_map_const_nil (l : List Nat) (j : Nat) :
    (l.map (fun _ => ([] : List (List Int)))).getD j [] = [] := by
  rw [List.getD_eq_getElem?_getD, List.getElem?_map]
  cases l[j]? <;> simp

theorem init_ok {sentences : List (List Int)} {batch_size : Nat} {inv : Int}
    {bkts : Option (List Nat)} {dn ln : String} {st : BucketSentenceIter}
    (h : BucketSentenceIter.init sentences batch_size inv bkts dn ln = .ok st) :
    List.Sorted (fun a b => a ≤ b) st.buckets ∧
    st.batch_size = batch_size ∧ st.invalid_label = inv ∧ st.curr_idx = 0 ∧
    st.buckets.max? = some st.default_bucket_key ∧
    st.data.length = st.buckets.length ∧
    st.ndiscard = sentences.countP
      (fun s => decide (bisect_left st.buckets s.length = st.buckets.length)) ∧
    (∀ j, j < st.buckets.length →
      st.data.getD j [] =
        (sentences.filter (fun s => decide (bisect_left st.buckets s.length = j))).map
          (fun s => padTo (st.buckets.getD j 0) inv s)) ∧
    st.idx = (List.range st.data.length).flatMap
      (fun i => (batchStarts ((st.data.getD i []).length) batch_size).map (fun j => (i, j))) := by
  simp only [BucketSentenceIter.init] at h
  cases hm : ((resolveBuckets sentences batch_size bkts).insertionSort
      (fun a b => a ≤ b)).max? with
  | none => rw [hm] at h; simp at h
  | some m =>
    rw [hm] at h
    simp only [Except.ok.injEq] at h
    obtain ⟨hfold1, hfold2, hfold3⟩ :=
      assign_foldl ((resolveBuckets sentences batch_size bkts).insertionSort (fun a b => a ≤ b))
        inv sentences
        (((resolveBuckets sentences batch_size bkts).insertionSort
          (fun a b => a ≤ b)).map (fun _ => []), 0)
        (by simp)
    subst h
    refine ⟨List.sorted_insertionSort _ _, rfl, rfl, rfl, hm, hfold1, ?_, ?_, rfl⟩
    · dsimp only
      omega
    · intro j hj
      rw [hfold3 j hj, getD_map_const_nil]
      simp

theorem find?_range_eq_none (n : Nat) (p : Nat → Bool) (h : ∀ j, j < n → p j = false) :
    (List.range n).find? p = none := by
  rw [List.find?_eq_none]
  intro x hx
  rw [List.mem_range] at hx
  simp [h x hx]

theorem find?_range_eq_some (n b : Nat) (p : Nat → Bool) (hb : b < n) (hpb : p b = true)
    (hlt : ∀ j, j < b → p j = false) : (List.range n).find? p = some b := by
  induction n with
  | zero => omega
  | succ n ih =>
    rw [List.range_succ, List.find?_append]
    by_cases hbn : b < n
    · rw [ih hbn]; simp
    · have hbe : b = n := by omega
      subst hbe
      rw [find?_range_eq_none b p hlt]
      simp [hpb]

theorem leastFit_eq (bl : List Nat) (x : Nat) :
    leastFit bl x =
      if bisect_left bl x < bl.length then some (bisect_left bl x) else none := by
  rw [leastFit]
  by_cases h : bisect_left bl x < bl.length
  · rw [if_pos h]
    apply find?_range_eq_some _ _ _ h
    · exact decide_eq_true (bisect_left_ge bl x h)
    · intro j hj
      exact decide_eq_false (Nat.not_le.mpr (bisect_left_lt_of_lt bl x j hj))
  · rw [if_neg h]
    apply find?_range_eq_none
    intro j hj
    have hjb : j < bisect_left bl x := by
      have := bisect_left_le_length bl x
      omega
    exact decide_eq_false (Nat.not_le.mpr (bisect_left_lt_of_lt bl x j hjb))

theorem bisect_pred_eq_leastFit_pred (bl : List Nat) (j : Nat) (hj : j < bl.length)
    (x : Nat) : decide (bisect_left bl x = j) = (leastFit bl x == some j) := by
  rw [leastFit_eq]
  by_cases h : bisect_left bl x < bl.length
  · rw [if_pos h]
    by_cases he : bisect_left bl x = j
    · simp [he]
    · simp [he]
  · rw [if_neg h]
    have hne : ¬ bisect_left bl x = j := by
      have := bisect_left_le_length bl x
      omega
    simp [hne]

/-- Claim C3: every sentence no longer than the largest bucket is placed in
exactly one bucket, the first (and, buckets being ascending, smallest) bucket
whose width is at least its length, right-padded to that width with
`invalid_label`; longer sentences are stored nowhere and the discard count is
the number of such sentences. -/
theorem init_bucket_assignment
    (sentences : List (List Int)) (batch_size : Nat) (inv : Int)
    (bkts : Option (List Nat)) (dn ln : String) (st : BucketSentenceIter) (m : Nat)
    (h : BucketSentenceIter.init sentences batch_size inv bkts dn ln = .ok st)
    (hm : st.buckets.max? = some m) :
    (∀ j, j < st.buckets.length →
        st.data.getD j [] =
          (sentences.filter (fun s => leastFit st.buckets s.length == some j)).map
            (fun s => padTo (st.buckets.getD j 0) inv s)) ∧
    (∀ s ∈ sentences, s.length ≤ m →
        ∃ j, leastFit st.buckets s.length = some j ∧ j < st.buckets.length ∧
          s.length ≤ st.buckets.getD j 0 ∧ ∀ i, i < j → st.buckets.getD i 0 < s.length) ∧
    (∀ j, j < st.buckets.length →
        ∀ row ∈ st.data.getD j [], row.length = st.buckets.getD j 0) ∧
    st.ndiscard = sentences.countP (fun s => decide (m < s.length)) ∧
    st.data.length = st.buckets.length := by
  obtain ⟨hsort, hbs, hinv, hcur, hmax, hdlen, hnd, hdata, hidx⟩ := init_ok h
  refine ⟨?_, ?_, ?_, ?_, hdlen⟩
  · intro j hj
    rw [hdata j hj]
    congr 1
    apply List.filter_congr
    intro s _
    exact bisect_pred_eq_leastFit_pred st.buckets j hj s.length
  · intro s hs hsm
    have hblt : bisect_left st.buckets s.length < st.buckets.length := by
      have hiff := bisect_eq_length_iff_max_lt st.buckets m s.length hm
      have hle := bisect_left_le_length st.buckets s.length
      have : ¬ (m < s.length) := by omega
      rcases Nat.lt_or_ge (bisect_left st.buckets s.length) st.buckets.length with hc | hc
      · exact hc
      · exact absurd (hiff.mp (by omega)) this
    refine ⟨bisect_left st.buckets s.length, ?_, hblt, bisect_left_ge _ _ hblt, ?_⟩
    · rw [leastFit_eq, if_pos hblt]
    · intro i hi
      exact bisect_left_lt_of_lt st.buckets s.length i hi
  · intro j hj row hrow
    rw [hdata j hj, List.mem_map] at hrow
    obtain ⟨s, hsf, hps⟩ := hrow
    rw [List.mem_filter] at hsf
    have hbj : bisect_left st.buckets s.length = j := of_decide_eq_true hsf.2
    have hsw : s.length ≤ st.buckets.getD j 0 := by
      have := bisect_left_ge st.buckets s.length (by rw [hbj]; exact hj)
      rwa [hbj] at this
    rw [← hps, padTo, List.length_append, List.length_replicate]
    omega
  · rw [hnd]
    apply List.countP_congr
    intro s _
    rw [decide_eq_true_eq, decide_eq_true_eq]
    exact bisect_eq_length_iff_max_lt st.buckets m s.length hm

theorem cons_eraseIdx_perm {α : Type*} :
    ∀ (l : List α) (j : Nat) (d : α), j < l.length →
    (l.getD j d :: l.eraseIdx j).Perm l := by
  intro l
  induction l with
  | nil => intro j d hj; simp at hj
  | cons x t ih =>
    intro j d hj
    cases j with
    | zero => simp [List.eraseIdx]
    | succ j =>
      simp only [List.getD_cons_succ, List.eraseIdx_cons_succ]
      have hj' : j < t.length := by simpa using hj
      exact List.Perm.trans (List.Perm.swap x (t.getD j d) (t.eraseIdx j))
        (List.Perm.cons x (ih j d hj'))

theorem shuffleModel_perm {α : Type*} (rs : List Nat) (l : List α) :
    (shuffleModel rs l).Perm l := by
  have main : ∀ (n : Nat) (rs : List Nat) (l : List α), l.length ≤ n →
      (shuffleModel rs l).Perm l := by
    intro n
    induction n with
    | zero =>
      intro rs l hl
      have hnil : l = [] := List.length_eq_zero.mp (by omega)
      subst hnil
      simp [shuffleModel]
    | succ n ih =>
      intro rs l hl
      cases l with
      | nil => simp [shuffleModel]
      | cons x t =>
        cases rs with
        | nil => simp [shuffleModel]
        | cons r rs' =>
          rw [shuffleModel]
          have hjlt : r % (t.length + 1) < (x :: t).length := by
            rw [List.length_cons]
            exact Nat.mod_lt _ (Nat.succ_pos _)
          have hlen : ((x :: t).eraseIdx (r % (t.length + 1))).length ≤ n := by
            rw [List.length_eraseIdx, if_pos hjlt, List.length_cons]
            rw [List.length_cons] at hl
            omega
          exact ((ih rs' _ hlen).cons _).trans (cons_eraseIdx_perm (x :: t) _ x hjlt)
  exact main l.length rs l (le_refl _)

/-- Claim C9: `reset()` zeroes the cursor, replaces the index table by a
permutation of its entries, independently replaces each bucket's row order by
a permutation of that bucket's rows (so no row is added, removed or resized),
and changes no other field of the iterator. -/
theorem reset_permutes_state (st : BucketSentenceIter) (ridx : List Nat)
    (rdata : Nat → List Nat) :
    (st.reset ridx rdata).curr_idx = 0 ∧
    ((st.reset ridx rdata).idx).Perm st.idx ∧
    (st.reset ridx rdata).data.length = st.data.length ∧
    (∀ i, ((st.reset ridx rdata).data.getD i []).Perm (st.data.getD i [])) ∧
    (st.reset ridx rdata).buckets = st.buckets ∧
    (st.reset ridx rdata).batch_size = st.batch_size ∧
    (st.reset ridx rdata).provide_data = st.provide_data ∧
    (st.reset ridx rdata).provide_label = st.provide_label ∧
    (st.reset ridx rdata).default_bucket_key = st.default_bucket_key ∧
    (st.reset ridx rdata).invalid_label = st.invalid_label ∧
    (st.reset ridx rdata).data_name = st.data_name ∧
    (st.reset ridx rdata).label_name = st.label_name := by
  refine ⟨rfl, shuffleModel_perm ridx st.idx, by simp [BucketSentenceIter.reset], ?_,
    rfl, rfl, rfl, rfl, rfl, rfl, rfl, rfl⟩
  intro i
  show (((List.range st.data.length).map
      (fun i => shuffleModel (rdata i) (st.data.getD i []))).getD i []).Perm
      (st.data.getD i [])
  rw [getD_map_range]
  by_cases hi : i < st.data.length
  · rw [if_pos hi]
    exact shuffleModel_perm _ _
  · rw [if_neg hi]
    rw [List.getD_eq_getElem?_getD, List.getElem?_eq_none (by omega)]
    simp

theorem idx_mem_iff (data : List (List (List Int))) (bs : Nat) (hbs : 1 ≤ bs) (i j : Nat) :
    (i, j) ∈ (List.range data.length).flatMap
        (fun i => (batchStarts ((data.getD i []).length) bs).map (fun j => (i, j))) ↔
      i < data.length ∧ (∃ k, j = k * bs) ∧ j + bs ≤ (data.getD i []).length := by
  rw [List.mem_flatMap]
  constructor
  · rintro ⟨i', hi', hmem⟩
    rw [List.mem_range] at hi'
    rw [List.mem_map] at hmem
    obtain ⟨j', hj', heq⟩ := hmem
    rw [Prod.mk.injEq] at heq
    obtain ⟨hii, hjj⟩ := heq
    subst hii; subst hjj
    rw [batchStarts, List.mem_map] at hj'
    obtain ⟨k, hk, hkj⟩ := hj'
    rw [List.mem_range] at hk
    subst hkj
    refine ⟨hi', ⟨k, rfl⟩, ?_⟩
    have hle : k + 1 ≤ (data.getD i' []).length / bs := hk
    have := (Nat.le_div_iff_mul_le (by omega)).mp hle
    rw [Nat.succ_mul] at this
    omega
  · rintro ⟨hi, ⟨k, hk⟩, hb⟩
    refine ⟨i, List.mem_range.mpr hi, ?_⟩
    rw [List.mem_map]
    refine ⟨j, ?_, rfl⟩
    rw [batchStarts, List.mem_map]
    refine ⟨k, List.mem_range.mpr ?_, hk.symm⟩
    have hmul : (k + 1) * bs ≤ (data.getD i []).length := by
      rw [Nat.succ_mul]
      omega
    have := (Nat.le_div_iff_mul_le (by omega : 0 < bs)).mpr hmul
    omega

theorem idx_length_eq (data : List (List (List Int))) (bs : Nat) :
    ((List.range data.length).flatMap
        (fun i => (batchStarts ((data.getD i []).length) bs).map (fun j => (i, j)))).length =
      (data.map (fun b => b.length / bs)).sum := by
  rw [List.length_flatMap]
  have h1 : List.map
      (List.length ∘ fun i => (batchStarts ((data.getD i []).length) bs).map (fun j => (i, j)))
      (List.range data.length) =
      (List.range data.length).map (fun i => (data.getD i []).length / bs) := by
    apply List.map_congr_left
    intro i _
    simp [Function.comp, batchStarts]
  rw [h1]
  simpa using congrArg List.sum (map_range_getD data [] (fun b => b.length / bs))

theorem idx_pairwise (data : List (List (List Int))) (bs : Nat) (hbs : 1 ≤ bs) :
    List.Pairwise (fun a b => a.1 < b.1 ∨ (a.1 = b.1 ∧ a.2 < b.2))
      ((List.range data.length).flatMap
        (fun i => (batchStarts ((data.getD i []).length) bs).map (fun j => (i, j)))) := by
  rw [List.flatMap_def, List.pairwise_flatten]
  constructor
  · intro l' hl'
    rw [List.mem_map] at hl'
    obtain ⟨i, _, heq⟩ := hl'
    subst heq
    rw [List.pairwise_map]
    have hp : List.Pairwise (fun a b => a < b) (batchStarts ((data.getD i []).length) bs) := by
      rw [batchStarts, List.pairwise_map]
      exact (List.pairwise_lt_range _).imp
        (fun hab => (Nat.mul_lt_mul_right (by omega : 0 < bs)).mpr hab)
    exact hp.imp (fun h => Or.inr ⟨rfl, h⟩)
  · rw [List.pairwise_map]
    apply (List.pairwise_lt_range _).imp
    intro a b hab x hx y hy
    rw [List.mem_map] at hx hy
    obtain ⟨j1, _, hx⟩ := hx
    obtain ⟨j2, _, hy⟩ := hy
    subst hx; subst hy
    exact Or.inl hab

theorem next_ok_of_lt {st : BucketSentenceIter}
    (hlt : st.curr_idx < st.idx.length)
    (hrows : ∀ bucket ∈ st.data, ∀ row ∈ bucket, row ≠ []) :
    ∃ b, st.next = .ok (b, { st with curr_idx := st.curr_idx + 1 }) := by
  simp only [BucketSentenceIter.next]
  rw [if_neg (by omega)]
  have hany : (((st.data.getD (st.idx.getD st.curr_idx (0, 0)).1 []).drop
      (st.idx.getD st.curr_idx (0, 0)).2).take st.batch_size).any
        (fun row => row.isEmpty) = false := by
    rw [List.any_eq_false]
    intro row hrow
    have hrow' : row ∈ st.data.getD (st.idx.getD st.curr_idx (0, 0)).1 [] :=
      List.mem_of_mem_drop (List.mem_of_mem_take hrow)
    by_cases hi : (st.idx.getD st.curr_idx (0, 0)).1 < st.data.length
    · have hbmem : st.data.getD (st.idx.getD st.curr_idx (0, 0)).1 [] ∈ st.data := by
        rw [List.getD_eq_getElem st.data [] hi]
        exact List.getElem_mem hi
      have hne := hrows _ hbmem row hrow'
      simp [List.isEmpty_iff, hne]
    · rw [List.getD_eq_getElem?_getD, List.getElem?_eq_none (by omega)] at hrow'
      simp at hrow'
  rw [if_neg (by rw [hany]; simp)]
  exact ⟨_, rfl⟩

theorem run_spec :
    ∀ (n : Nat) (st : BucketSentenceIter),
    st.curr_idx ≤ st.idx.length →
    st.idx.length - st.curr_idx ≤ n →
    (∀ bucket ∈ st.data, ∀ row ∈ bucket, row ≠ []) →
    runFuel n st = st.idx.length - st.curr_idx ∧
    (st.idx.length - st.curr_idx < n → runErr n st = some NextError.stopIteration) := by
  intro n
  induction n with
  | zero =>
    intro st h1 h2 h3
    constructor
    · simp only [runFuel]
      omega
    · intro h; omega
  | succ n ih =>
    intro st h1 h2 h3
    by_cases hc : st.curr_idx = st.idx.length
    · have hstop : st.next = .error .stopIteration := by
        rw [BucketSentenceIter.next, if_pos hc]
      constructor
      · simp [runFuel, hstop]
        omega
      · intro _
        simp [runErr, hstop]
    · have hlt : st.curr_idx < st.idx.length := by omega
      obtain ⟨b, hnext⟩ := next_ok_of_lt hlt h3
      obtain ⟨ihf, ihe⟩ := ih { st with curr_idx := st.curr_idx + 1 }
        (by simp; omega) (by simp; omega) (by simpa using h3)
      constructor
      · simp only [runFuel, hnext]
        simp only at ihf
        rw [ihf]
        omega
      · intro hlt2
        simp only [runErr, hnext]
        apply ihe
        simp only
        omega

theorem init_rows_nonempty {sentences : List (List Int)} {batch_size : Nat} {inv : Int}
    {bkts : Option (List Nat)} {dn ln : String} {st : BucketSentenceIter}
    (h : BucketSentenceIter.init sentences batch_size inv bkts dn ln = .ok st)
    (h0 : (0 : Nat) ∉ st.buckets) :
    ∀ bucket ∈ st.data, ∀ row ∈ bucket, row ≠ [] := by
  obtain ⟨hsort, hbs, hinv, hcur, hmax, hdlen, hnd, hdata, hidx⟩ := init_ok h
  intro bucket hb row hrow
  obtain ⟨j, hj, hbj⟩ := List.mem_iff_getElem.mp hb
  have hjb : j < st.buckets.length := by omega
  have hbucket : st.data.getD j [] = bucket := by
    rw [List.getD_eq_getElem st.data [] hj, hbj]
  rw [← hbucket, hdata j hjb, List.mem_map] at hrow
  obtain ⟨s, hsf, hps⟩ := hrow
  rw [List.mem_filter] at hsf
  have hbj2 : bisect_left st.buckets s.length = j := of_decide_eq_true hsf.2
  have hsw : s.length ≤ st.buckets.getD j 0 := by
    have := bisect_left_ge st.buckets s.length (by rw [hbj2]; exact hjb)
    rwa [hbj2] at this
  have hwpos : st.buckets.getD j 0 ≠ 0 := by
    intro h0'
    apply h0
    rw [← h0', List.getD_eq_getElem st.buckets 0 hjb]
    exact List.getElem_mem hjb
  intro hrow0
  rw [← hps] at hrow0
  have hlen0 := congrArg List.length hrow0
  rw [padTo, List.length_append, List.length_replicate, List.length_nil] at hlen0
  omega

/-- Counterexample to C4 as stated: one empty sentence with `batch_size` 1 and
no bucket list derives the width-0 bucket set `[0]`; construction succeeds
with an index table of one entry and `sum (floor(rows / batch_size)) = 1`, yet
the epoch makes 0 successful `next()` calls and ends in the numpy `IndexError`
from `label[:, -1]` on a `(1, 0)` array — the stop condition is never reached,
so the unconditional epoch-count sentence of the claim fails here. -/
theorem init_index_table_epoch_counterexample :
    BucketSentenceIter.init [([] : List Int)] 1 (-1) none "data" "softmax_label" =
      .ok ⟨[[([] : List Int)]], 0, [("data", 1, 0)], [("softmax_label", 1, 0)], 1, [0],
        "data", "softmax_label", -1, [(0, 0)], 0, 0⟩ ∧
    (([(0, 0)] : List (Nat × Nat)).length = 1 ∧
      (([[([] : List Int)]] : List (List (List Int))).map (fun b => b.length / 1)).sum = 1) ∧
    epochBatches ⟨[[([] : List Int)]], 0, [("data", 1, 0)], [("softmax_label", 1, 0)], 1, [0],
        "data", "softmax_label", -1, [(0, 0)], 0, 0⟩ = 0 ∧
    runErr (([(0, 0)] : List (Nat × Nat)).length + 1)
      ⟨[[([] : List Int)]], 0, [("data", 1, 0)], [("softmax_label", 1, 0)], 1, [0],
        "data", "softmax_label", -1, [(0, 0)], 0, 0⟩ = some NextError.indexError :=
  ⟨by decide, ⟨by decide, by decide⟩, by decide, by decide⟩

/-- Claim C4 (amended): the index table holds, bucket by bucket in order and
offsets in order, exactly the multiples of `batch_size` that leave room for a
full batch, and its size is the sum over buckets of `floor(rows / batch_size)`
— unconditionally; provided additionally that no bucket has width 0, a full
epoch from construction or from any `reset` makes exactly that many successful
`next()` calls before `StopIteration` (with a populated width-0 bucket the
epoch instead ends early in the numpy `IndexError`, as the counterexample
shows). -/
theorem init_index_table_and_epoch_size
    (sentences : List (List Int)) (bs : Nat) (inv : Int) (bkts : Option (List Nat))
    (dn ln : String) (st : BucketSentenceIter)
    (hbs : 1 ≤ bs)
    (h : BucketSentenceIter.init sentences bs inv bkts dn ln = .ok st) :
    (∀ i j, (i, j) ∈ st.idx ↔
        i < st.data.length ∧ (∃ k, j = k * bs) ∧ j + bs ≤ (st.data.getD i []).length) ∧
    List.Pairwise (fun a b => a.1 < b.1 ∨ (a.1 = b.1 ∧ a.2 < b.2)) st.idx ∧
    st.idx.length = (st.data.map (fun b => b.length / bs)).sum ∧
    ((0 : Nat) ∉ st.buckets →
        epochBatches st = st.idx.length ∧
        runErr (st.idx.length + 1) st = some NextError.stopIteration ∧
        ∀ ridx rdata, epochBatches (st.reset ridx rdata) = st.idx.length) := by
  obtain ⟨hsort, hbsf, hinv, hcur, hmax, hdlen, hnd, hdata, hidx⟩ := init_ok h
  refine ⟨?_, ?_, ?_, ?_⟩
  · intro i j
    rw [hidx]
    exact idx_mem_iff st.data bs hbs i j
  · rw [hidx]
    exact idx_pairwise st.data bs hbs
  · rw [hidx]
    exact idx_length_eq st.data bs
  · intro h0
    have hrows := init_rows_nonempty h h0
    obtain ⟨hf, he⟩ := run_spec (st.idx.length + 1) st
      (by rw [hcur]; exact Nat.zero_le _) (by omega) hrows
    refine ⟨?_, ?_, ?_⟩
    · rw [epochBatches, hf, hcur]
      simp
    · exact he (by rw [hcur]; omega)
    · intro ridx rdata
      obtain ⟨rc, rperm, rdlen, rdperm, _, _, _, _, _, _, _, _⟩ :=
        reset_permutes_state st ridx rdata
      have rlen : (st.reset ridx rdata).idx.length = st.idx.length := rperm.length_eq
      have hrows' : ∀ bucket ∈ (st.reset ridx rdata).data, ∀ row ∈ bucket, row ≠ [] := by
        intro bucket hb row hrow
        obtain ⟨i, hi, hbi⟩ := List.mem_iff_getElem.mp hb
        have hgd : (st.reset ridx rdata).data.getD i [] = bucket := by
          rw [List.getD_eq_getElem _ [] hi, hbi]
        have hrp := rdperm i
        rw [hgd] at hrp
        have hrow2 : row ∈ st.data.getD i [] := hrp.mem_iff.mp hrow
        have hi2 : i < st.data.length := by omega
        have hbmem : st.data.getD i [] ∈ st.data := by
          rw [List.getD_eq_getElem _ [] hi2]
          exact List.getElem_mem hi2
        exact hrows _ hbmem row hrow2
      obtain ⟨hf2, _⟩ := run_spec ((st.reset ridx rdata).idx.length + 1) (st.reset ridx rdata)
        (by rw [rc]; exact Nat.zero_le _) (by omega) hrows'
      rw [epochBatches, hf2, rc, rlen]
      simp

theorem label_row_spec (row : List Int) (inv : Int) (hne : row ≠ []) :
    (row.drop 1 ++ [inv]).length = row.length ∧
    (∀ k, k + 1 < row.length → (row.drop 1 ++ [inv]).getD k 0 = row.getD (k + 1) 0) ∧
    (row.drop 1 ++ [inv]).getD (row.length - 1) 0 = inv := by
  have hpos : 1 ≤ row.length := List.length_pos.mpr hne
  refine ⟨?_, ?_, ?_⟩
  · rw [List.length_append, List.length_drop]
    simp
    omega
  · intro k hk
    have hklt : k < (row.drop 1).length := by
      rw [List.length_drop]
      omega
    rw [List.getD_eq_getElem?_getD, List.getD_eq_getElem?_getD]
    rw [List.getElem?_append_left hklt, List.getElem?_drop]
    have hadd : 1 + k = k + 1 := Nat.add_comm 1 k
    rw [hadd]
  · have hge : (row.drop 1).length ≤ row.length - 1 := by
      rw [List.length_drop]
    rw [List.getD_eq_getElem?_getD, List.getElem?_append_right hge]
    have h2 : row.length - 1 - (row.drop 1).length = 0 := by
      rw [List.length_drop]
      omega
    rw [h2]
    simp

/-- Claim C2: every batch emitted by `next()` has a label array of the same
shape as its data array, with `label[:, :-1] == data[:, 1:]` and
`label[:, -1] == invalid_label`, row by row. -/
theorem next_label_shifts_data
    (st : BucketSentenceIter) (b : DataBatch) (st' : BucketSentenceIter)
    (h : st.next = .ok (b, st')) :
    b.label.length = b.data.length ∧
    ∀ r, r < b.data.length →
      (b.label.getD r []).length = (b.data.getD r []).length ∧
      (∀ k, k + 1 < (b.data.getD r []).length →
          (b.label.getD r []).getD k 0 = (b.data.getD r []).getD (k + 1) 0) ∧
      (b.label.getD r []).getD ((b.data.getD r []).length - 1) 0 = st.invalid_label := by
  simp only [BucketSentenceIter.next] at h
  by_cases hc : st.curr_idx = st.idx.length
  · rw [if_pos hc] at h
    simp at h
  · rw [if_neg hc] at h
    by_cases hany : (((st.data.getD (st.idx.getD st.curr_idx (0, 0)).1 []).drop
        (st.idx.getD st.curr_idx (0, 0)).2).take st.batch_size).any
          (fun row => row.isEmpty) = true
    · rw [if_pos hany] at h
      simp at h
    · rw [if_neg hany] at h
      simp only [Except.ok.injEq, Prod.mk.injEq] at h
      obtain ⟨hb, _⟩ := h
      subst hb
      have hany' : (((st.data.getD (st.idx.getD st.curr_idx (0, 0)).1 []).drop
          (st.idx.getD st.curr_idx (0, 0)).2).take st.batch_size).any
            (fun row => row.isEmpty) = false := by
        cases hB : (((st.data.getD (st.idx.getD st.curr_idx (0, 0)).1 []).drop
            (st.idx.getD st.curr_idx (0, 0)).2).take st.batch_size).any
              (fun row => row.isEmpty) with
        | false => rfl
        | true => exact absurd hB hany
      refine ⟨by simp, ?_⟩
      intro r hr
      dsimp only at hr ⊢
      have hrd : r < (((st.data.getD (st.idx.getD st.curr_idx (0, 0)).1 []).drop
          (st.idx.getD st.curr_idx (0, 0)).2).take st.batch_size).length := hr
      have hrm : r < ((((st.data.getD (st.idx.getD st.curr_idx (0, 0)).1 []).drop
          (st.idx.getD st.curr_idx (0, 0)).2).take st.batch_size).map
            (fun row => row.drop 1 ++ [st.invalid_label])).length := by
        rw [List.length_map]
        exact hrd
      rw [List.getD_eq_getElem _ [] hrm, List.getD_eq_getElem _ [] hrd, List.getElem_map]
      have hne : (((st.data.getD (st.idx.getD st.curr_idx (0, 0)).1 []).drop
          (st.idx.getD st.curr_idx (0, 0)).2).take st.batch_size)[r] ≠ [] := by
        have := List.any_eq_false.mp hany' _ (List.getElem_mem hrd)
        simpa [List.isEmpty_iff] using this
      exact label_row_spec _ st.invalid_label hne

/-- Counterexample to C1 as stated: with no bucket set supplied, `batch_size`
2 and a single one-token sentence, the derived bucket set is empty and the
constructor raises (`max()` of an empty sequence) instead of succeeding. -/
theorem init_empty_buckets_counterexample :
    derivedBuckets [[0]] 2 = [] ∧
    BucketSentenceIter.init [[0]] 2 (-1) none "data" "softmax_label" =
      .error .maxEmpty :=
  ⟨by decide, by decide⟩

/-- Claim C1 (amended): if the derived bucket set is empty (no sentence length
has count at least `batch_size`), construction does not succeed: it fails with
the `ValueError` from `max()` over the empty bucket list, for a missing bucket
argument and for a supplied empty one alike; no iterator is produced. -/
theorem init_empty_derived_buckets_errors
    (sentences : List (List Int)) (bs : Nat) (inv : Int) (dn ln : String)
    (h : derivedBuckets sentences bs = []) :
    BucketSentenceIter.init sentences bs inv none dn ln = .error .maxEmpty ∧
    BucketSentenceIter.init sentences bs inv (some []) dn ln = .error .maxEmpty := by
  constructor <;>
  · simp only [BucketSentenceIter.init, resolveBuckets, h]
    rfl

/-- Witness for (amended) C1 at a concrete input using the supplied-empty-list
branch. -/
theorem init_empty_derived_buckets_errors_witness :
    derivedBuckets [[5]] 2 = [] ∧
    BucketSentenceIter.init [[5]] 2 7 (some []) "d" "l" = .error .maxEmpty :=
  ⟨by decide, (init_empty_derived_buckets_errors [[5]] 2 7 "d" "l" (by decide)).2⟩

/-- Counterexample to C6 as stated: one empty sentence with `batch_size` 1
derives bucket set `[0]`, but the set of positive sentence lengths with count
at least `batch_size` is empty — width 0 is derived and is not positive. -/
theorem derived_buckets_counterexample :
    derivedBuckets [([] : List Int)] 1 = [0] ∧
    specPositiveBuckets [([] : List Int)] 1 = [] :=
  ⟨by decide, by decide⟩

/-- Claim C6 (amended): for `batch_size ≥ 1`, the derived bucket set is the
strictly ascending enumeration of exactly those (nonnegative — zero included)
sentence lengths whose sentence count is at least `batch_size`. -/
theorem derived_buckets_characterization (sentences : List (List Int)) (bs : Nat)
    (hbs : 1 ≤ bs) :
    List.Sorted (fun a b => a < b) (derivedBuckets sentences bs) ∧
    ∀ n, n ∈ derivedBuckets sentences bs ↔
      bs ≤ (sentences.map List.length).count n := by
  constructor
  · simp only [derivedBuckets]
    exact (List.pairwise_lt_range _).filter _
  · intro n
    simp only [derivedBuckets]
    rw [List.mem_filter, List.mem_range]
    cases hls : sentences.map List.length with
    | nil =>
      rw [bincount]
      simp
      omega
    | cons a t =>
      rw [bincount]
      rw [List.length_map, List.length_range]
      constructor
      · rintro ⟨hn, hc⟩
        have hd := of_decide_eq_true hc
        rw [getD_map_range, if_pos hn] at hd
        exact hd
      · intro hc
        have hmem : n ∈ a :: t := List.count_pos_iff.mp (by omega)
        have hle : n ≤ (a :: t).foldr Nat.max 0 := foldr_max_ge _ n hmem
        refine ⟨by omega, ?_⟩
        apply decide_eq_true
        rw [getD_map_range, if_pos (by omega)]
        exact hc

/-- Witness for (amended) C6 at a concrete input. -/
theorem derived_buckets_characterization_witness :
    (1 : Nat) ≤ 1 ∧
    List.Sorted (fun a b => a < b) (derivedBuckets [[(5 : Int)], [6, 7]] 1) ∧
    (2 ∈ derivedBuckets [[(5 : Int)], [6, 7]] 1 ↔
      1 ≤ ([[(5 : Int)], [6, 7]].map List.length).count 2) :=
  ⟨by decide, (derived_buckets_characterization [[(5 : Int)], [6, 7]] 1 (by decide)).1,
    (derived_buckets_characterization [[(5 : Int)], [6, 7]] 1 (by decide)).2 2⟩

/-- Claim C10: a supplied non-empty bucket list is used in ascending sorted
order — Python's `buckets.sort()` sorts the caller's very list object in
place, observable here as the iterator's bucket list being the ascending sort
(a sorted permutation) of the supplied list — and a supplied empty list is
treated exactly like supplying no bucket list at all. -/
theorem supplied_buckets_sorted_and_empty_like_none
    (sentences : List (List Int)) (bs : Nat) (inv : Int) (dn ln : String)
    (bkts : List Nat) (hne : bkts ≠ []) :
    (∃ st, BucketSentenceIter.init sentences bs inv (some bkts) dn ln = .ok st ∧
        st.buckets.Perm bkts ∧ List.Sorted (fun a b => a ≤ b) st.buckets) ∧
    BucketSentenceIter.init sentences bs inv (some []) dn ln =
      BucketSentenceIter.init sentences bs inv none dn ln := by
  constructor
  · obtain ⟨b, bt, hb⟩ : ∃ b bt, bkts = b :: bt := by
      cases bkts with
      | nil => exact absurd rfl hne
      | cons b bt => exact ⟨b, bt, rfl⟩
    subst hb
    have hres : resolveBuckets sentences bs (some (b :: bt)) = b :: bt := rfl
    have hperm : (List.insertionSort (fun a b => a ≤ b) (b :: bt)).Perm (b :: bt) :=
      List.perm_insertionSort _ _
    obtain ⟨m, hm⟩ : ∃ m, (List.insertionSort (fun a b => a ≤ b)
        (resolveBuckets sentences bs (some (b :: bt)))).max? = some m := by
      rw [hres]
      cases hs : List.insertionSort (fun a b => a ≤ b) (b :: bt) with
      | nil =>
        exfalso
        have hpl := hperm.length_eq
        rw [hs] at hpl
        simp at hpl
      | cons c ct =>
        rw [List.max?_cons]
        exact ⟨_, rfl⟩
    simp only [BucketSentenceIter.init]
    rw [hm]
    refine ⟨_, rfl, ?_, ?_⟩
    · dsimp only
      rw [hres]
      exact hperm
    · dsimp only
      exact List.sorted_insertionSort _ _
  · rfl

/-- Witness for C10 at a concrete input: buckets `[3, 1]` become `[1, 3]`. -/
theorem supplied_buckets_sorted_and_empty_like_none_witness :
    (([3, 1] : List Nat) ≠ []) ∧
    (∃ st, BucketSentenceIter.init [[2]] 1 (-1) (some [3, 1]) "d" "l" = .ok st ∧
        st.buckets.Perm [3, 1] ∧ List.Sorted (fun a b => a ≤ b) st.buckets) :=
  ⟨by decide,
    (supplied_buckets_sorted_and_empty_like_none [[2]] 1 (-1) "d" "l" [3, 1] (by decide)).1⟩

/-- Witness for C2 at a concrete iterator: the emitted label row `[8, -1]`
shifts the data row `[7, 8]` and ends with `invalid_label = -1`. -/
theorem next_label_shifts_data_witness :
    BucketSentenceIter.next
        ⟨[[[7, 8], [9, -1]]], 2, [("data", 1, 2)], [("softmax_label", 1, 2)], 1, [2],
          "data", "softmax_label", -1, [(0, 0), (0, 1)], 0, 0⟩ =
      .ok (⟨[[7, 8]], [[8, -1]], 2, [("data", 1, 2)], [("softmax_label", 1, 2)]⟩,
        ⟨[[[7, 8], [9, -1]]], 2, [("data", 1, 2)], [("softmax_label", 1, 2)], 1, [2],
          "data", "softmax_label", -1, [(0, 0), (0, 1)], 1, 0⟩) ∧
    (([[8, -1]] : List (List Int)).getD 0 []).getD 0 0 =
      (([[7, 8]] : List (List Int)).getD 0 []).getD 1 0 ∧
    (([[8, -1]] : List (List Int)).getD 0 []).getD 1 0 = (-1 : Int) := by
  refine ⟨by decide, ?_, ?_⟩
  · exact ((next_label_shifts_data
      ⟨[[[7, 8], [9, -1]]], 2, [("data", 1, 2)], [("softmax_label", 1, 2)], 1, [2],
        "data", "softmax_label", -1, [(0, 0), (0, 1)], 0, 0⟩
      ⟨[[7, 8]], [[8, -1]], 2, [("data", 1, 2)], [("softmax_label", 1, 2)]⟩
      ⟨[[[7, 8], [9, -1]]], 2, [("data", 1, 2)], [("softmax_label", 1, 2)], 1, [2],
        "data", "softmax_label", -1, [(0, 0), (0, 1)], 1, 0⟩
      (by decide)).2 0 (by decide)).2.1 0 (by decide)
  · exact ((next_label_shifts_data
      ⟨[[[7, 8], [9, -1]]], 2, [("data", 1, 2)], [("softmax_label", 1, 2)], 1, [2],
        "data", "softmax_label", -1, [(0, 0), (0, 1)], 0, 0⟩
      ⟨[[7, 8]], [[8, -1]], 2, [("data", 1, 2)], [("softmax_label", 1, 2)]⟩
      ⟨[[[7, 8], [9, -1]]], 2, [("data", 1, 2)], [("softmax_label", 1, 2)], 1, [2],
        "data", "softmax_label", -1, [(0, 0), (0, 1)], 1, 0⟩
      (by decide)).2 0 (by decide)).2.2

/-- Witness for C3 at a concrete input: both sentences land, padded, in the
single bucket of width 2. -/
theorem init_bucket_assignment_witness :
    BucketSentenceIter.init [[7, 8], [9]] 1 (-1) (some [2]) "data" "softmax_label" =
      .ok ⟨[[[7, 8], [9, -1]]], 2, [("data", 1, 2)], [("softmax_label", 1, 2)], 1, [2],
        "data", "softmax_label", -1, [(0, 0), (0, 1)], 0, 0⟩ ∧
    ([2] : List Nat).max? = some 2 ∧
    ([[[7, 8], [9, -1]]] : List (List (List Int))).getD 0 [] =
      ([[7, 8], [9]].filter (fun s => leastFit [2] s.length == some 0)).map
        (fun s => padTo 2 (-1) s) := by
  refine ⟨by decide, by decide, ?_⟩
  exact (init_bucket_assignment [[7, 8], [9]] 1 (-1) (some [2]) "data" "softmax_label"
    ⟨[[[7, 8], [9, -1]]], 2, [("data", 1, 2)], [("softmax_label", 1, 2)], 1, [2],
      "data", "softmax_label", -1, [(0, 0), (0, 1)], 0, 0⟩ 2 (by decide) (by decide)).1
    0 (by decide)

/-- Witness for C4 at a concrete input: two rows in one width-2 bucket with
`batch_size` 1 give an index table of length 2 and an epoch of 2 batches. -/
theorem init_index_table_and_epoch_size_witness :
    (1 : Nat) ≤ 1 ∧
    BucketSentenceIter.init [[7, 8], [9]] 1 (-1) (some [2]) "data" "softmax_label" =
      .ok ⟨[[[7, 8], [9, -1]]], 2, [("data", 1, 2)], [("softmax_label", 1, 2)], 1, [2],
        "data", "softmax_label", -1, [(0, 0), (0, 1)], 0, 0⟩ ∧
    ([(0, 0), (0, 1)] : List (Nat × Nat)).length =
      (([[[7, 8], [9, -1]]] : List (List (List Int))).map (fun b => b.length / 1)).sum ∧
    ((0 : Nat) ∉ ([2] : List Nat)) ∧
    epochBatches ⟨[[[7, 8], [9, -1]]], 2, [("data", 1, 2)], [("softmax_label", 1, 2)], 1, [2],
        "data", "softmax_label", -1, [(0, 0), (0, 1)], 0, 0⟩ =
      ([(0, 0), (0, 1)] : List (Nat × Nat)).length := by
  refine ⟨by decide, by decide, ?_, by decide, ?_⟩
  · exact (init_index_table_and_epoch_size [[7, 8], [9]] 1 (-1) (some [2]) "data"
      "softmax_label"
      ⟨[[[7, 8], [9, -1]]], 2, [("data", 1, 2)], [("softmax_label", 1, 2)], 1, [2],
        "data", "softmax_label", -1, [(0, 0), (0, 1)], 0, 0⟩
      (by decide) (by decide)).2.2.1
  · exact ((init_index_table_and_epoch_size [[7, 8], [9]] 1 (-1) (some [2]) "data"
      "softmax_label"
      ⟨[[[7, 8], [9, -1]]], 2, [("data", 1, 2)], [("softmax_label", 1, 2)], 1, [2],
        "data", "softmax_label", -1, [(0, 0), (0, 1)], 0, 0⟩
      (by decide) (by decide)).2.2.2 (by decide)).1
